import Mathlib

/-!
# Verification of the SMAUG SMV tiled convolution driver

A shallow embedding of `SmvConvolutionOp::runNHWC` and `SmvConvolutionOp::run`
(src/nnet_lib/src/operators/smv/smv_convolution_op.cpp) together with the
tiling-optimizer interface they call into
(`TilingOptimizer::computeBasicTileShapes`, `TilingOptimizer::generateTiledTensor`),
and proofs of the specification's claims about the channel-tile reconciliation
loop, the accumulate flag, halo handling, layout assertions and tile
reconstruction.
-/

namespace Smaug

/-- Hardware resource constant `smaug::smv::conv::kNumPEs`
(smv_convolution_op.cpp line 12). -/
def kNumPEs : Nat := 8

/-- Hardware resource constant `smaug::smv::conv::kNumMaccsPerPE`
(smv_convolution_op.cpp line 13). -/
def kNumMaccsPerPE : Nat := 32

/-- One invocation of the fixed-function kernel
`smv_conv3d_f32_nhwc_same_padding_vec_fxp` inside `runNHWC`, recorded with the
loop indices it was issued at and the accumulate-flag argument (the last
argument of the call, `iC == wC` in the source). -/
structure KernelCall where
  n : Nat
  h : Nat
  w : Nat
  iC : Nat
  wC : Nat
  accumulate : Bool
deriving Repr, DecidableEq

/-- The channel-tile reconciliation loop of `runNHWC`
(smv_convolution_op.cpp lines 29-70), as the list of kernel invocations it
performs from cursor state `(iC, wC)`:

    while (iC < inputChanTiles && wC < weightChanTiles) {
        ...kernel call with accumulate flag (iC == wC)...
        if (inputChanTiles == weightChanTiles) { iC++; wC++; }
        else if (inputChanTiles == 1) { wC++; }
        else { iC++; }
    }
-/
def reconcile (inputChanTiles weightChanTiles n h w iC wC : Nat) : List KernelCall :=
  if iC < inputChanTiles ∧ wC < weightChanTiles then
    let call : KernelCall := ⟨n, h, w, iC, wC, iC == wC⟩
    if inputChanTiles = weightChanTiles then
      call :: reconcile inputChanTiles weightChanTiles n h w (iC + 1) (wC + 1)
    else if inputChanTiles = 1 then
      call :: reconcile inputChanTiles weightChanTiles n h w iC (wC + 1)
    else
      call :: reconcile inputChanTiles weightChanTiles n h w (iC + 1) wC
  else
    []
termination_by (inputChanTiles - iC) + (weightChanTiles - wC)
decreasing_by
  · omega
  · omega
  · omega

/-- The full tile-iteration procedure of `runNHWC`
(smv_convolution_op.cpp lines 24-73) as the ordered list of kernel
invocations: `N` ranges over the input tile-grid's batch extent
(`inputs.getShape()[0]`), `H` over its height extent (`inputs.getShape()[1]`),
`W` over the weight tile-grid's filter extent (`weights.getShape()[0]`), and
for each `(N, H, W)` the reconciliation loop runs with both cursors starting
at 0, `inputChanTiles = inputs.getShape()[3]`,
`weightChanTiles = weights.getShape()[3]`. -/
def runNHWCTrace (inputGridN inputGridH inputChanTiles weightGridF weightChanTiles : Nat) :
    List KernelCall :=
  (List.range inputGridN).flatMap fun n =>
    (List.range inputGridH).flatMap fun h =>
      (List.range weightGridF).flatMap fun w =>
        reconcile inputChanTiles weightChanTiles n h w 0 0

/-- A `TiledTensor` as the driver sees it: the tile-grid shape — the number of
tiles per axis, `TiledTensor::getShape()` — and the store of tiles addressed by
linear tile index, `TiledTensor::operator[]`. Tile contents are abstract. -/
structure TiledTensorState (α : Type) where
  grid0 : Nat
  grid1 : Nat
  grid2 : Nat
  grid3 : Nat
  tiles : Nat → α

/-- Modelled from the spec: `TiledTensor::startIndex()` (its implementation is
not among the sources) returns a coordinate-indexing function closed over the
tile-grid shape, translating (n, h, w, c) tile coordinates to the linear tile
index in row-major order. -/
def startIndex (t : TiledTensorState α) (a b c d : Nat) : Nat :=
  ((a * t.grid1 + b) * t.grid2 + c) * t.grid3 + d

/-- The state acted on by one `runNHWC` invocation: the input, weight and
output tiled tensors. -/
structure ConvState (α : Type) where
  inputs : TiledTensorState α
  weights : TiledTensorState α
  outputs : TiledTensorState α

/-- One invocation of `smv_conv3d_f32_nhwc_same_padding_vec_fxp` as a state
update (smv_convolution_op.cpp lines 34-60): the kernel reads the input tile at
`inputIdx(N, H, 0, iC)` and the weight tile at `weightIdx(W, 0, 0, wC)`, and
writes its result in place into the output tile at `outputIdx(N, H, 0, W)`.
The external kernel's numeric computation is abstracted by `kernel`, which
receives the input tile, the weight tile, the previous output tile and the
accumulate flag. -/
def applyCall (kernel : α → α → α → Bool → α) (s : ConvState α) (c : KernelCall) :
    ConvState α :=
  let inTile := s.inputs.tiles (startIndex s.inputs c.n c.h 0 c.iC)
  let wTile := s.weights.tiles (startIndex s.weights c.w 0 0 c.wC)
  let outIdx := startIndex s.outputs c.n c.h 0 c.w
  ConvState.mk s.inputs s.weights
    (TiledTensorState.mk s.outputs.grid0 s.outputs.grid1 s.outputs.grid2
      s.outputs.grid3
      (Function.update s.outputs.tiles outIdx
        (kernel inTile wTile (s.outputs.tiles outIdx) c.accumulate)))

/-- `SmvConvolutionOp::runNHWC` as a state transformer: the kernel calls of the
tile-iteration trace are applied to the state in program order; the loop bounds
are read off the input and weight tile-grid shapes exactly as in the source. -/
def runNHWCState (kernel : α → α → α → Bool → α) (s : ConvState α) : ConvState α :=
  (runNHWCTrace s.inputs.grid0 s.inputs.grid1 s.inputs.grid3
      s.weights.grid0 s.weights.grid3).foldl (applyCall kernel) s

/-- Tensor data layouts (`DataLayout` in core/tensor.h; the operator requires
NHWC, smv_convolution_op.h lines 28-33). -/
inductive DataLayout
  | NHWC
  | NCHW
  | NC
deriving DecidableEq, Repr

/-- A tensor shape as consumed by `SmvConvolutionOp::run`: the four dimension
extents and the layout tag. -/
structure TensorShape4 where
  dim0 : Nat
  dim1 : Nat
  dim2 : Nat
  dim3 : Nat
  layout : DataLayout
deriving DecidableEq, Repr

/-- A tile shape (four extents) as produced by the tiling optimizer. -/
structure TileShape4 where
  dim0 : Nat
  dim1 : Nat
  dim2 : Nat
  dim3 : Nat
deriving DecidableEq, Repr

/-- The tiling configuration returned by
`TilingOptimizer::computeBasicTileShapes`: one tile shape per tensor. -/
structure TilingConfig where
  inputs : TileShape4
  weights : TileShape4
  outputs : TileShape4
deriving DecidableEq, Repr

/-- The operator state consumed by `SmvConvolutionOp::run`: the shapes of the
input, weights ("kernels") and output tensors, the kernel spatial extent
fields `weightRows`/`weightCols`, and the strides. -/
structure ConvOpParams where
  inputShape : TensorShape4
  kernelShape : TensorShape4
  outputShape : TensorShape4
  weightRows : Nat
  weightCols : Nat
  rowStride : Nat
  colStride : Nat
deriving DecidableEq, Repr

/-- Modelled from the spec: `TilingOptimizer::computeBasicTileShapes` (declared
in smv_convolution_tiling.h; its implementation is not among the sources). A
pure function of the operator's shapes, stride and the hardware resource
constants: (a) the weight tile's channel extent is bounded by the per-tile
compute budget of `numPEs` processing elements with `maccsPerPE`
multiply-accumulates each — with one PE per filter the largest admissible
channel extent is `maccsPerPE`, and the tie-break prefers the larger tile, so
the weight tile takes channel extent `min(weight channels, maccsPerPE)` and
filter extent `min(num filters, numPEs)`, keeping the kernel's spatial
extents; (b) the input tile's channel extent matches the weight tile's channel
extent, degrading to the whole channel depth in a single tile when that depth
is no larger than one weight tile's channel extent; (c) the output tile's
channel extent equals the weight tile's filter extent and its spatial extents
equal the input tile's spatial extents. -/
def computeBasicTileShapes (p : ConvOpParams) (numPEs maccsPerPE : Nat) :
    TilingConfig :=
  let wChans := min p.kernelShape.dim3 maccsPerPE
  let wFilters := min p.kernelShape.dim0 numPEs
  let iChans := if p.inputShape.dim3 ≤ wChans then p.inputShape.dim3 else wChans
  TilingConfig.mk
    (TileShape4.mk p.inputShape.dim0 p.inputShape.dim1 p.inputShape.dim2 iChans)
    (TileShape4.mk wFilters p.weightRows p.weightCols wChans)
    (TileShape4.mk p.outputShape.dim0 p.inputShape.dim1 p.inputShape.dim2 wFilters)

/-- Modelled from the spec: the tile-grid extent along one axis produced by
`TilingOptimizer::generateTiledTensor` (implementation not among the sources)
— the number of tiles covering an axis of extent `extent` with tiles of extent
`tileExtent`, the last tile possibly smaller: the ceiling of the quotient. -/
def numTiles (extent tileExtent : Nat) : Nat :=
  (extent + tileExtent - 1) / tileExtent

/-- Modelled from the spec: the configuration validation performed with the
tiling computation (not among the sources) — a shape mismatch between the
weight tile's spatial extent and the configured kernel extent is a
configuration error. -/
def weightTileSpatialOK (cfg : TilingConfig) (p : ConvOpParams) : Bool :=
  cfg.weights.dim1 == p.weightRows && cfg.weights.dim2 == p.weightCols

/-- The observable steps of one `SmvConvolutionOp::run` invocation. -/
inductive RunEvent
  | computeShapes (cfg : TilingConfig)
  | genTiled (role : Nat) (tileShape : TileShape4) (halos : List Nat)
  | kernelCall (c : KernelCall)
deriving DecidableEq, Repr

/-- The fatal failures of `SmvConvolutionOp::run`: a layout assertion failure
(smv_convolution_op.cpp lines 84-86) or a configuration error from the tiling
computation. -/
inductive RunError
  | assertionFailure
  | configError
deriving DecidableEq, Repr

/-- Tensor roles in `run`, used to tag `genTiled` events: 0 the input, 1 the
weights, 2 the output. -/
def inputsRole : Nat := 0

/-- Weights role tag for `genTiled` events. -/
def kernelsRole : Nat := 1

/-- Output role tag for `genTiled` events. -/
def outputsRole : Nat := 2

/-- `SmvConvolutionOp::run` (smv_convolution_op.cpp lines 76-99) as an ordered
event trace, parameterized over the tiling configuration so that ill-formed
configurations can be examined. It asserts the NHWC layout of the input,
weights and output shapes (lines 84-86); then performs the tiling computation
together with the spec-modelled configuration validation; then generates the
three tiled tensors — the input halo specification is
`{ 0, weightRows / 2, weightCols / 2, 0 }` and the weight and output halo
specifications are `{ 0, 0, 0, 0 }` (lines 90-96); then runs `runNHWC` over
the resulting tile grids. The result is the list of events performed before
any failure, paired with the failure if one occurred. -/
def runTraceWithTiling (p : ConvOpParams) (cfg : TilingConfig) :
    List RunEvent × Option RunError :=
  if p.inputShape.layout = DataLayout.NHWC ∧
      p.kernelShape.layout = DataLayout.NHWC ∧
      p.outputShape.layout = DataLayout.NHWC then
    if weightTileSpatialOK cfg p then
      let inputGrid0 := numTiles p.inputShape.dim0 cfg.inputs.dim0
      let inputGrid1 := numTiles p.inputShape.dim1 cfg.inputs.dim1
      let inputGrid3 := numTiles p.inputShape.dim3 cfg.inputs.dim3
      let weightGrid0 := numTiles p.kernelShape.dim0 cfg.weights.dim0
      let weightGrid3 := numTiles p.kernelShape.dim3 cfg.weights.dim3
      (RunEvent.computeShapes cfg ::
        RunEvent.genTiled inputsRole cfg.inputs
          [0, p.weightRows / 2, p.weightCols / 2, 0] ::
        RunEvent.genTiled kernelsRole cfg.weights [0, 0, 0, 0] ::
        RunEvent.genTiled outputsRole cfg.outputs [0, 0, 0, 0] ::
        (runNHWCTrace inputGrid0 inputGrid1 inputGrid3 weightGrid0
            weightGrid3).map RunEvent.kernelCall,
        none)
    else ([RunEvent.computeShapes cfg], some RunError.configError)
  else ([], some RunError.assertionFailure)

/-- `SmvConvolutionOp::run`: the event trace with the tiling configuration
computed by `computeBasicTileShapes` from the hardware constants `kNumPEs` and
`kNumMaccsPerPE` (smv_convolution_op.cpp line 89). -/
def runTrace (p : ConvOpParams) : List RunEvent × Option RunError :=
  runTraceWithTiling p (computeBasicTileShapes p kNumPEs kNumMaccsPerPE)

/-- The halo specifications of the `generateTiledTensor` calls of a trace, in
order. -/
def genHalos (es : List RunEvent) : List (Nat × List Nat) :=
  es.filterMap fun e =>
    match e with
    | RunEvent.genTiled role _ halos => some (role, halos)
    | _ => none

/-- Modelled from the spec: along one axis of `TilingOptimizer::
generateTiledTensor` (implementation not among the sources), the first source
element included in tile `i` — the tile's region start `i * tileExtent`
extended left by the halo, clamped at the source's start (truncated
subtraction). -/
def tileStart (tileExtent halo i : Nat) : Nat :=
  i * tileExtent - halo

/-- Modelled from the spec: one past the last source element included in tile
`i` along an axis — the region end `(i+1) * tileExtent` extended right by the
halo, clamped at the source extent so no read occurs out of bounds. -/
def tileEnd (extent tileExtent halo i : Nat) : Nat :=
  min ((i + 1) * tileExtent + halo) extent

/-- The length of the halo-subtracted core of tile `i` along an axis: from
`i * tileExtent` to `min ((i+1) * tileExtent) extent` — the last tile's core
is truncated at the source extent. -/
def coreLen (extent tileExtent i : Nat) : Nat :=
  min tileExtent (extent - i * tileExtent)

/-- The data of tile `i` along one axis: the source elements of the haloed
range `[tileStart, tileEnd)`, in order. -/
def tileData (src : Nat → α) (extent tileExtent halo i : Nat) : List α :=
  (List.range (tileEnd extent tileExtent halo i - tileStart tileExtent halo i)).map
    fun j => src (tileStart tileExtent halo i + j)

/-- The halo-subtracted core of tile `i`: drop the left halo actually
included, keep the core elements. -/
def tileCore (src : Nat → α) (extent tileExtent halo i : Nat) : List α :=
  ((tileData src extent tileExtent halo i).drop
      (i * tileExtent - tileStart tileExtent halo i)).take
    (coreLen extent tileExtent i)

/-- Concatenating the halo-subtracted cores of all tiles along an axis. -/
def reconstruct (src : Nat → α) (extent tileExtent halo : Nat) : List α :=
  (List.range (numTiles extent tileExtent)).flatMap fun i =>
    tileCore src extent tileExtent halo i

/-- Modelled from the spec: the tile of `generateTiledTensor` at grid
coordinate (a, b, c, d), as a function of local (in-tile) coordinates; the
haloed region of the tile starts at `tileStart` on each axis, so local
coordinates translate to source coordinates by adding the per-axis starts. -/
def tile4D (src : Nat → Nat → Nat → Nat → α)
    (T0 T1 T2 T3 h0 h1 h2 h3 a b c d : Nat) : Nat → Nat → Nat → Nat → α :=
  fun i j k l =>
    src (tileStart T0 h0 a + i) (tileStart T1 h1 b + j)
      (tileStart T2 h2 c + k) (tileStart T3 h3 d + l)

/-- Reading one element back from the tiled tensor: the tile whose
halo-subtracted core covers global coordinate `x` is tile `x / tileExtent` per
axis, and within it the element sits at local offset `x - tileStart`. -/
def readBack (src : Nat → Nat → Nat → Nat → α)
    (T0 T1 T2 T3 h0 h1 h2 h3 x0 x1 x2 x3 : Nat) : α :=
  tile4D src T0 T1 T2 T3 h0 h1 h2 h3 (x0 / T0) (x1 / T1) (x2 / T2) (x3 / T3)
    (x0 - tileStart T0 h0 (x0 / T0)) (x1 - tileStart T1 h1 (x1 / T1))
    (x2 - tileStart T2 h2 (x2 / T2)) (x3 - tileStart T3 h3 (x3 / T3))

/-- Every call emitted by the reconciliation loop carries the accumulate flag
`iC == wC` computed from its own cursor values. -/
theorem reconcile_accumulate (icT wcT n h w iC wC : Nat) :
    ∀ c ∈ reconcile icT wcT n h w iC wC, c.accumulate = (c.iC == c.wC) := by
  induction iC, wC using reconcile.induct icT wcT n h w with
  | case1 iC wC hlt heq ih =>
    rw [reconcile]
    simp only [if_pos hlt, if_pos heq]
    intro c hc
    rcases List.mem_cons.mp hc with hc | hc
    · subst hc; rfl
    · exact ih c hc
  | case2 iC wC hlt hne hone ih =>
    rw [reconcile]
    simp only [if_pos hlt, if_neg hne, if_pos hone]
    intro c hc
    rcases List.mem_cons.mp hc with hc | hc
    · subst hc; rfl
    · exact ih c hc
  | case3 iC wC hlt hne hnone ih =>
    rw [reconcile]
    simp only [if_pos hlt, if_neg hne, if_neg hnone]
    intro c hc
    rcases List.mem_cons.mp hc with hc | hc
    · subst hc; rfl
    · exact ih c hc
  | case4 iC wC hge =>
    rw [reconcile]
    simp only [if_neg hge]
    intro c hc
    exact absurd hc (List.not_mem_nil c)

/-- Closed form of the matched-count case: with equal channel-tile counts both
cursors advance together from `c`, every call carrying flag `true`. -/
theorem reconcile_matched (t n h w : Nat) :
    ∀ c, reconcile t t n h w c c =
      (List.range (t - c)).map fun i => ⟨n, h, w, c + i, c + i, true⟩ := by
  have key : ∀ d c, t - c = d → reconcile t t n h w c c =
      (List.range (t - c)).map fun i => ⟨n, h, w, c + i, c + i, true⟩ := by
    intro d
    induction d with
    | zero =>
      intro c hd
      rw [reconcile, if_neg (by omega), hd]
      simp
    | succ d ih =>
      intro c hd
      rw [reconcile, if_pos (by omega), if_pos rfl]
      rw [ih (c + 1) (by omega)]
      rw [hd, show t - (c + 1) = d by omega, List.range_succ_eq_map]
      simp only [List.map_cons, List.map_map]
      refine List.cons_eq_cons.mpr ⟨by simp, ?_⟩
      apply List.map_congr_left
      intro i _
      simp only [Function.comp_apply]
      congr 1 <;> omega
  exact fun c => key (t - c) c rfl

/-- Closed form of the single-input-tile case: when the input tile-grid's
channel extent is 1 and the weight tile-grid's is not, only `wC` advances. -/
theorem reconcile_one_input (wcT n h w : Nat) (hne : wcT ≠ 1) :
    ∀ wC, reconcile 1 wcT n h w 0 wC =
      (List.range (wcT - wC)).map fun j => ⟨n, h, w, 0, wC + j, 0 == wC + j⟩ := by
  have key : ∀ d wC, wcT - wC = d → reconcile 1 wcT n h w 0 wC =
      (List.range (wcT - wC)).map fun j => ⟨n, h, w, 0, wC + j, 0 == wC + j⟩ := by
    intro d
    induction d with
    | zero =>
      intro wC hd
      rw [reconcile, if_neg (by omega), hd]
      simp
    | succ d ih =>
      intro wC hd
      rw [reconcile, if_pos (by omega), if_neg (by omega), if_pos rfl]
      rw [ih (wC + 1) (by omega)]
      rw [hd, show wcT - (wC + 1) = d by omega, List.range_succ_eq_map]
      simp only [List.map_cons, List.map_map]
      refine List.cons_eq_cons.mpr ⟨by simp, ?_⟩
      apply List.map_congr_left
      intro j _
      simp only [Function.comp_apply]
      have harith : wC + 1 + j = wC + j.succ := by omega
      rw [harith]
  exact fun wC => key (wcT - wC) wC rfl

/-- Closed form of the remaining case: when the channel-tile counts differ and
the input tile-grid's channel extent is not 1, only `iC` advances and `wC`
stays at 0. -/
theorem reconcile_many_input (icT wcT n h w : Nat) (hne : icT ≠ wcT)
    (hin : icT ≠ 1) (hw : 0 < wcT) :
    ∀ iC, reconcile icT wcT n h w iC 0 =
      (List.range (icT - iC)).map fun i => ⟨n, h, w, iC + i, 0, iC + i == 0⟩ := by
  have key : ∀ d iC, icT - iC = d → reconcile icT wcT n h w iC 0 =
      (List.range (icT - iC)).map fun i => ⟨n, h, w, iC + i, 0, iC + i == 0⟩ := by
    intro d
    induction d with
    | zero =>
      intro iC hd
      rw [reconcile, if_neg (by omega), hd]
      simp
    | succ d ih =>
      intro iC hd
      rw [reconcile, if_pos (by omega), if_neg hne, if_neg hin]
      rw [ih (iC + 1) (by omega)]
      rw [hd, show icT - (iC + 1) = d by omega, List.range_succ_eq_map]
      simp only [List.map_cons, List.map_map]
      refine List.cons_eq_cons.mpr ⟨by simp, ?_⟩
      apply List.map_congr_left
      intro i _
      simp only [Function.comp_apply]
      have harith : iC + 1 + i = iC + i.succ := by omega
      rw [harith]
  exact fun iC => key (icT - iC) iC rfl

/-- C1 counterexample: with input-channel-tile count 2 and weight-channel-tile
count 2 (matched counts) and a single (N,H,W) output tile, `runNHWC` performs
two kernel calls whose accumulate flags are `[true, true]` — the first call
touching the output tile receives flag `true` (`iC == wC` with both cursors 0),
not `false` as the claim states, and the flag sequence is not `[false, true]`. -/
theorem runNHWC_first_flag_true :
    (runNHWCTrace 1 1 2 1 2).map KernelCall.accumulate = [true, true] ∧
    (runNHWCTrace 1 1 2 1 2).map KernelCall.accumulate ≠ [false, true] := by
  have htr : runNHWCTrace 1 1 2 1 2 =
      [⟨0, 0, 0, 0, 0, true⟩, ⟨0, 0, 0, 1, 1, true⟩] := by
    simp [runNHWCTrace, reconcile, List.range_succ]
  rw [htr]
  exact ⟨rfl, by simp⟩

/-- C1 (amended): every kernel invocation issued by `runNHWC` receives the
accumulate-flag argument equal to the cursor-equality test `iC == wC` at the
moment of invocation; in particular, with input-channel-tile count 2 and
weight-channel-tile count 2 both of the two calls per output tile receive flag
`true`. -/
theorem runNHWC_accumulate_flag (gridN gridH icT gridF wcT : Nat) :
    ((runNHWCTrace gridN gridH icT gridF wcT).all
        fun c => c.accumulate == (c.iC == c.wC)) = true ∧
    (runNHWCTrace 1 1 2 1 2).map KernelCall.accumulate = [true, true] := by
  constructor
  · rw [List.all_eq_true]
    intro c hc
    simp only [runNHWCTrace, List.mem_flatMap, List.mem_range] at hc
    obtain ⟨n, -, h, -, w, -, hc⟩ := hc
    have hacc := reconcile_accumulate icT wcT n h w 0 0 c hc
    simp [hacc]
  · simp [runNHWCTrace, reconcile, List.range_succ]

/-- C2: for every (N,H,W) iteration the reconciliation cursors start at 0 (the
trace runs `reconcile … 0 0` per output tile), the loop body runs only while
both cursors are below their respective channel extents (otherwise it stops),
and one step behaves exactly as: with equal channel-tile extents the kernel is
invoked at cursors (iC, wC) and both advance by one; with unequal extents and
input channel extent exactly 1 the kernel is invoked on the single input tile
(cursor iC) with weight tile wC and only wC advances. -/
theorem reconcile_step_rule (gridN gridH gridF icT wcT n h w iC wC : Nat) :
    (runNHWCTrace gridN gridH icT gridF wcT =
      (List.range gridN).flatMap fun n' =>
        (List.range gridH).flatMap fun h' =>
          (List.range gridF).flatMap fun w' =>
            reconcile icT wcT n' h' w' 0 0) ∧
    (¬(iC < icT ∧ wC < wcT) → reconcile icT wcT n h w iC wC = []) ∧
    (iC < icT → wC < wcT → icT = wcT →
      reconcile icT wcT n h w iC wC =
        ⟨n, h, w, iC, wC, iC == wC⟩ :: reconcile icT wcT n h w (iC + 1) (wC + 1)) ∧
    (iC < icT → wC < wcT → icT ≠ wcT → icT = 1 →
      reconcile icT wcT n h w iC wC =
        ⟨n, h, w, iC, wC, iC == wC⟩ :: reconcile icT wcT n h w iC (wC + 1)) := by
  refine ⟨rfl, ?_, ?_, ?_⟩
  · intro hstop
    rw [reconcile, if_neg hstop]
  · intro h1 h2 heq
    rw [reconcile, if_pos ⟨h1, h2⟩, if_pos heq]
  · intro h1 h2 hne hone
    rw [reconcile, if_pos ⟨h1, h2⟩, if_neg hne, if_pos hone]

/-- Witness for `reconcile_step_rule` at concrete cursor states: a matched-count
step at (0,0), a single-input-tile step at (0,1), and loop exit at (2,2). -/
theorem reconcile_step_rule_witness :
    reconcile 2 2 5 6 7 0 0 = ⟨5, 6, 7, 0, 0, true⟩ :: reconcile 2 2 5 6 7 1 1 ∧
    reconcile 1 3 5 6 7 0 1 = ⟨5, 6, 7, 0, 1, false⟩ :: reconcile 1 3 5 6 7 0 2 ∧
    reconcile 2 2 5 6 7 2 2 = [] :=
  ⟨(reconcile_step_rule 1 1 1 2 2 5 6 7 0 0).2.2.1 (by decide) (by decide) rfl,
   (reconcile_step_rule 1 1 1 1 3 5 6 7 0 1).2.2.2 (by decide) (by decide)
     (by decide) rfl,
   (reconcile_step_rule 1 1 1 2 2 5 6 7 2 2).2.1 (by decide)⟩

/-- C3: channel-tile reconciliation coverage — for input/weight channel-tile
counts drawn from {1, k} (k > 1), the per-output-tile loop visits exactly the
(iC, wC) pairs needed to cover the channel depth, each exactly once, and
terminates; with counts (1, 4) it performs exactly 4 kernel calls, wC taking
values 0,1,2,3 while iC stays 0. -/
theorem reconcile_coverage (k n h w : Nat) (hk : 1 < k) :
    reconcile 1 1 n h w 0 0 = [⟨n, h, w, 0, 0, true⟩] ∧
    (reconcile 1 k n h w 0 0).map (fun c => (c.iC, c.wC)) =
      (List.range k).map (fun j => (0, j)) ∧
    (reconcile k 1 n h w 0 0).map (fun c => (c.iC, c.wC)) =
      (List.range k).map (fun i => (i, 0)) ∧
    (reconcile k k n h w 0 0).map (fun c => (c.iC, c.wC)) =
      (List.range k).map (fun i => (i, i)) ∧
    (reconcile 1 4 n h w 0 0).map (fun c => (c.iC, c.wC)) =
      [(0, 0), (0, 1), (0, 2), (0, 3)] ∧
    (reconcile 1 4 n h w 0 0).length = 4 := by
  refine ⟨?_, ?_, ?_, ?_, ?_, ?_⟩
  · rw [reconcile_matched 1 n h w 0]
    simp [List.range_succ]
  · rw [reconcile_one_input k n h w (by omega) 0]
    simp
  · rw [reconcile_many_input k 1 n h w (by omega) (by omega) (by omega) 0]
    simp
  · rw [reconcile_matched k n h w 0]
    simp
  · rw [reconcile_one_input 4 n h w (by omega) 0]
    simp [List.range_succ]
  · rw [reconcile_one_input 4 n h w (by omega) 0]
    simp

/-- Witness for `reconcile_coverage` at k = 4 and output-tile indices
(n,h,w) = (0,0,0). -/
theorem reconcile_coverage_witness :
    reconcile 1 1 0 0 0 0 0 = [⟨0, 0, 0, 0, 0, true⟩] ∧
    (reconcile 1 4 0 0 0 0 0).map (fun c => (c.iC, c.wC)) =
      [(0, 0), (0, 1), (0, 2), (0, 3)] ∧
    (reconcile 1 4 0 0 0 0 0).length = 4 :=
  ⟨(reconcile_coverage 4 0 0 0 (by decide)).1,
   (reconcile_coverage 4 0 0 0 (by decide)).2.2.2.2.1,
   (reconcile_coverage 4 0 0 0 (by decide)).2.2.2.2.2⟩

/-- C10: when the channel-tile counts are unequal and both exceed 1, the
reconciliation loop still terminates, performing exactly `inputChanTiles`
kernel calls per (N,H,W) output tile; only `iC` advances, `wC` stays 0, and no
weight channel tile of index 1 or above is ever visited. -/
theorem reconcile_unequal_both_many (icT wcT n h w : Nat)
    (hi : 1 < icT) (hw : 1 < wcT) (hne : icT ≠ wcT) :
    (reconcile icT wcT n h w 0 0).map (fun c => (c.iC, c.wC)) =
      (List.range icT).map (fun i => (i, 0)) ∧
    (reconcile icT wcT n h w 0 0).length = icT ∧
    ∀ c ∈ reconcile icT wcT n h w 0 0, c.wC = 0 := by
  have hcf := reconcile_many_input icT wcT n h w hne (by omega) (by omega) 0
  refine ⟨?_, ?_, ?_⟩
  · rw [hcf]
    simp
  · rw [hcf]
    simp
  · rw [hcf]
    intro c hc
    simp only [List.mem_map, List.mem_range] at hc
    obtain ⟨i, -, hi'⟩ := hc
    rw [← hi']

/-- Witness for `reconcile_unequal_both_many` at channel-tile counts (3, 2). -/
theorem reconcile_unequal_both_many_witness :
    (reconcile 3 2 0 0 0 0 0).map (fun c => (c.iC, c.wC)) =
      (List.range 3).map (fun i => (i, 0)) ∧
    (reconcile 3 2 0 0 0 0 0).length = 3 ∧
    ∀ c ∈ reconcile 3 2 0 0 0 0 0, c.wC = 0 :=
  reconcile_unequal_both_many 3 2 0 0 0 (by decide) (by decide) (by decide)

/-- Folding any list of kernel calls over the state leaves the input and weight
tiled tensors untouched. -/
theorem foldl_applyCall_frame (kernel : α → α → α → Bool → α) (tr : List KernelCall) :
    ∀ s : ConvState α, ((tr.foldl (applyCall kernel) s).inputs = s.inputs ∧
      (tr.foldl (applyCall kernel) s).weights = s.weights) := by
  induction tr with
  | nil => exact fun s => ⟨rfl, rfl⟩
  | cons c tr ih =>
    intro s
    simp only [List.foldl_cons]
    exact ⟨(ih (applyCall kernel s c)).1, (ih (applyCall kernel s c)).2⟩

/-- C7: during the entire tile-iteration procedure `runNHWC`, writes occur only
into tiles of the output tiled tensor: the input and weight tiled tensors
(grids and every tile) are identical before and after the run, for every
kernel function and every starting state. -/
theorem runNHWC_frame (kernel : α → α → α → Bool → α) (s : ConvState α) :
    (runNHWCState kernel s).inputs = s.inputs ∧
    (runNHWCState kernel s).weights = s.weights :=
  foldl_applyCall_frame kernel _ s

/-- C4: in `SmvConvolutionOp::run`, the halo specification passed to
`generateTiledTensor` for the input tensor is `kernel_extent / 2` on the two
spatial axes (`weightRows / 2` and `weightCols / 2`) and 0 on the batch and
channel axes, and the halo specifications passed for the weights and output
tensors are all-zero on every axis. -/
theorem run_halo_spec (p : ConvOpParams)
    (h1 : p.inputShape.layout = DataLayout.NHWC)
    (h2 : p.kernelShape.layout = DataLayout.NHWC)
    (h3 : p.outputShape.layout = DataLayout.NHWC) :
    genHalos (runTrace p).1 =
      [(inputsRole, [0, p.weightRows / 2, p.weightCols / 2, 0]),
       (kernelsRole, [0, 0, 0, 0]),
       (outputsRole, [0, 0, 0, 0])] := by
  unfold runTrace runTraceWithTiling
  rw [if_pos ⟨h1, h2, h3⟩]
  rw [if_pos (by simp [weightTileSpatialOK, computeBasicTileShapes])]
  simp only [genHalos, List.filterMap_cons, List.filterMap_map]
  simp [Function.comp]

/-- Witness for `run_halo_spec` at a concrete NHWC operator with a 3x3 kernel:
the input halo is {0, 1, 1, 0} and the weight and output halos are zero. -/
theorem run_halo_spec_witness :
    genHalos (runTrace (ConvOpParams.mk
        (TensorShape4.mk 1 8 8 4 DataLayout.NHWC)
        (TensorShape4.mk 8 3 3 4 DataLayout.NHWC)
        (TensorShape4.mk 1 8 8 8 DataLayout.NHWC) 3 3 1 1)).1 =
      [(inputsRole, [0, 1, 1, 0]),
       (kernelsRole, [0, 0, 0, 0]),
       (outputsRole, [0, 0, 0, 0])] :=
  run_halo_spec _ rfl rfl rfl

/-- C5: a shape mismatch between the weight tile's spatial extent and the
configured kernel extent is reported as a configuration error with the tiling
computation, before the tile-iteration loop begins and never mid-loop: under
NHWC layouts, with any tiling configuration whose weight tile spatial extent
disagrees with the kernel extent, the run stops at the tiling-computation step
with `configError`, and its trace contains no kernel invocation at all. -/
theorem config_error_before_iteration (p : ConvOpParams) (cfg : TilingConfig)
    (h1 : p.inputShape.layout = DataLayout.NHWC)
    (h2 : p.kernelShape.layout = DataLayout.NHWC)
    (h3 : p.outputShape.layout = DataLayout.NHWC)
    (hbad : weightTileSpatialOK cfg p = false) :
    runTraceWithTiling p cfg =
      ([RunEvent.computeShapes cfg], some RunError.configError) ∧
    ∀ e ∈ (runTraceWithTiling p cfg).1, ∀ c, e ≠ RunEvent.kernelCall c := by
  have hmain : runTraceWithTiling p cfg =
      ([RunEvent.computeShapes cfg], some RunError.configError) := by
    unfold runTraceWithTiling
    rw [if_pos ⟨h1, h2, h3⟩]
    simp [hbad]
  refine ⟨hmain, ?_⟩
  rw [hmain]
  intro e he c
  simp only [List.mem_singleton] at he
  subst he
  simp

/-- Witness for `config_error_before_iteration`: a tiling configuration whose
weight tile claims spatial extent 5x5 against a configured 3x3 kernel is
rejected at the tiling step with no kernel call issued. -/
theorem config_error_before_iteration_witness :
    runTraceWithTiling
        (ConvOpParams.mk
          (TensorShape4.mk 1 8 8 4 DataLayout.NHWC)
          (TensorShape4.mk 8 3 3 4 DataLayout.NHWC)
          (TensorShape4.mk 1 8 8 8 DataLayout.NHWC) 3 3 1 1)
        (TilingConfig.mk (TileShape4.mk 1 8 8 4) (TileShape4.mk 8 5 5 4)
          (TileShape4.mk 1 8 8 8)) =
      ([RunEvent.computeShapes (TilingConfig.mk (TileShape4.mk 1 8 8 4)
          (TileShape4.mk 8 5 5 4) (TileShape4.mk 1 8 8 8))],
        some RunError.configError) :=
  (config_error_before_iteration _ _ rfl rfl rfl (by decide)).1

/-- C6: `SmvConvolutionOp::run` asserts that the input, weights and output
tensors all have the NHWC layout before any tiling computation: if any of the
three layouts differs from NHWC, the run fails with the assertion failure and
its trace is empty — in particular neither `computeBasicTileShapes` nor any
`generateTiledTensor` call was performed, and the failure is fatal (an error,
not a recoverable result). -/
theorem run_layout_assert (p : ConvOpParams)
    (hbad : ¬(p.inputShape.layout = DataLayout.NHWC ∧
      p.kernelShape.layout = DataLayout.NHWC ∧
      p.outputShape.layout = DataLayout.NHWC)) :
    runTrace p = ([], some RunError.assertionFailure) ∧
    ∀ e, e ∉ (runTrace p).1 := by
  have hmain : runTrace p = ([], some RunError.assertionFailure) := by
    unfold runTrace runTraceWithTiling
    rw [if_neg hbad]
  refine ⟨hmain, ?_⟩
  rw [hmain]
  intro e
  exact List.not_mem_nil e

/-- Witness for `run_layout_assert`: an operator whose input tensor is laid
out NCHW fails the layout assertion with an empty trace. -/
theorem run_layout_assert_witness :
    runTrace (ConvOpParams.mk
        (TensorShape4.mk 1 4 8 8 DataLayout.NCHW)
        (TensorShape4.mk 8 3 3 4 DataLayout.NHWC)
        (TensorShape4.mk 1 8 8 8 DataLayout.NHWC) 3 3 1 1) =
      ([], some RunError.assertionFailure) :=
  (run_layout_assert _ (by simp)).1

/-- C9: `computeBasicTileShapes` is deterministic — it is a pure function of
the operator shapes, stride and the hardware resource constants, so any two
calls with identical arguments return identical tile shapes. -/
theorem computeBasicTileShapes_deterministic (p q : ConvOpParams)
    (pe pe' macc macc' : Nat) (hp : p = q) (hpe : pe = pe')
    (hmacc : macc = macc') :
    computeBasicTileShapes p pe macc = computeBasicTileShapes q pe' macc' := by
  subst hp
  subst hpe
  subst hmacc
  rfl

/-- The halo-subtracted core of a tile is exactly the source segment
`[i * tileExtent, i * tileExtent + coreLen)`: the halo clamping never loses or
duplicates a core element. -/
theorem tileCore_eq (src : Nat → α) (extent tileExtent halo i : Nat) :
    tileCore src extent tileExtent halo i =
      (List.range (coreLen extent tileExtent i)).map
        fun j => src (i * tileExtent + j) := by
  have hmul : (i + 1) * tileExtent = i * tileExtent + tileExtent := by ring
  apply List.ext_getElem
  · simp only [tileCore, tileData, List.length_take, List.length_drop,
      List.length_map, List.length_range, coreLen, tileEnd, tileStart, hmul]
    generalize i * tileExtent = s
    omega
  · intro k h1 h2
    simp only [tileCore, tileData, List.getElem_take, List.getElem_drop,
      List.getElem_map, List.getElem_range]
    congr 1
    simp only [tileStart]
    generalize i * tileExtent = s
    omega

/-- The index blocks `[i*T, i*T + coreLen)` for `i < n` concatenate to the
initial segment `[0, min (n*T) extent)` of the axis. -/
theorem range_flatMap_blocks (tileExtent extent : Nat) (hT : 0 < tileExtent) :
    ∀ n, ((List.range n).flatMap fun i =>
        (List.range (coreLen extent tileExtent i)).map fun j =>
          i * tileExtent + j) =
      List.range (min (n * tileExtent) extent) := by
  intro n
  induction n with
  | zero => simp
  | succ n ih =>
    rw [List.range_succ, List.flatMap_append, ih]
    simp only [List.flatMap_cons, List.flatMap_nil, List.append_nil]
    have hmul : (n + 1) * tileExtent = n * tileExtent + tileExtent := by ring
    by_cases hE : extent ≤ n * tileExtent
    · have h2 : coreLen extent tileExtent n = 0 := by
        simp [coreLen, Nat.sub_eq_zero_of_le hE]
      rw [h2]
      simp only [List.range_zero, List.map_nil, List.append_nil]
      congr 1
      omega
    · have h1 : min (n * tileExtent) extent = n * tileExtent := by omega
      have h4 : min ((n + 1) * tileExtent) extent =
          n * tileExtent + coreLen extent tileExtent n := by
        simp only [coreLen]
        omega
      rw [h1, h4, List.range_add]

/-- The tile count covers the whole axis: `extent ≤ numTiles * tileExtent`. -/
theorem le_numTiles_mul (extent tileExtent : Nat) (hT : 0 < tileExtent) :
    extent ≤ numTiles extent tileExtent * tileExtent := by
  unfold numTiles
  rcases Nat.eq_zero_or_pos extent with hE | hE
  · simp [hE]
  · have h1 : extent + tileExtent - 1 = (extent - 1) + tileExtent := by omega
    rw [h1, Nat.add_div_right _ hT]
    have h3 := Nat.div_add_mod (extent - 1) tileExtent
    have h4 : (extent - 1) % tileExtent < tileExtent := Nat.mod_lt _ hT
    have h5 : ((extent - 1) / tileExtent + 1) * tileExtent =
        tileExtent * ((extent - 1) / tileExtent) + tileExtent := by ring
    omega

/-- Along one axis, concatenating the halo-subtracted cores of all tiles
reproduces the source data exactly. -/
theorem reconstruct_eq (src : Nat → α) (extent tileExtent halo : Nat)
    (hT : 0 < tileExtent) :
    reconstruct src extent tileExtent halo = (List.range extent).map src := by
  have hblocks := range_flatMap_blocks tileExtent extent hT
      (numTiles extent tileExtent)
  have hmin : min (numTiles extent tileExtent * tileExtent) extent = extent := by
    have := le_numTiles_mul extent tileExtent hT
    omega
  rw [hmin] at hblocks
  have hmap := congrArg (List.map src) hblocks
  rw [List.map_flatMap] at hmap
  simp only [List.map_map, Function.comp] at hmap
  unfold reconstruct
  simp only [tileCore_eq]
  exact hmap

/-- Covering-tile index bound: a coordinate inside the source falls in a tile
inside the tile grid. -/
theorem div_lt_numTiles (extent tileExtent x : Nat) (hT : 0 < tileExtent)
    (hx : x < extent) : x / tileExtent < numTiles extent tileExtent := by
  have h1 := le_numTiles_mul extent tileExtent hT
  by_contra hc
  push_neg at hc
  have h2 : numTiles extent tileExtent * tileExtent ≤
      x / tileExtent * tileExtent := Nat.mul_le_mul_right tileExtent hc
  have h3 : x / tileExtent * tileExtent ≤ x := Nat.div_mul_le_self x tileExtent
  omega

/-- Reading back through the covering tile recovers the source element. -/
theorem readBack_cancel (tileExtent halo x : Nat) :
    tileStart tileExtent halo (x / tileExtent) +
      (x - tileStart tileExtent halo (x / tileExtent)) = x := by
  have h1 : x / tileExtent * tileExtent ≤ x := Nat.div_mul_le_self x tileExtent
  simp only [tileStart]
  omega

/-- C8: `generateTiledTensor` reconstructs its source exactly. Along any axis
(any extent, tile extent and halo, including extents not divisible by the
tile extent) concatenating the halo-subtracted tile cores reproduces the
source data with no gap and no truncation; and for a four-axis tensor, every
in-bounds coordinate is covered by a tile that lies inside the tile grid and
whose data at the corresponding local offset is the source element. -/
theorem generateTiledTensor_reconstructs {α β : Type} (src1 : Nat → α)
    (src : Nat → Nat → Nat → Nat → β)
    (extent tileExtent halo E0 E1 E2 E3 T0 T1 T2 T3 h0 h1 h2 h3
      x0 x1 x2 x3 : Nat)
    (hT : 0 < tileExtent) (hT0 : 0 < T0) (hT1 : 0 < T1) (hT2 : 0 < T2)
    (hT3 : 0 < T3) (hx0 : x0 < E0) (hx1 : x1 < E1) (hx2 : x2 < E2)
    (hx3 : x3 < E3) :
    reconstruct src1 extent tileExtent halo = (List.range extent).map src1 ∧
    readBack src T0 T1 T2 T3 h0 h1 h2 h3 x0 x1 x2 x3 = src x0 x1 x2 x3 ∧
    x0 / T0 < numTiles E0 T0 ∧ x1 / T1 < numTiles E1 T1 ∧
    x2 / T2 < numTiles E2 T2 ∧ x3 / T3 < numTiles E3 T3 := by
  refine ⟨reconstruct_eq src1 extent tileExtent halo hT, ?_,
    div_lt_numTiles E0 T0 x0 hT0 hx0, div_lt_numTiles E1 T1 x1 hT1 hx1,
    div_lt_numTiles E2 T2 x2 hT2 hx2, div_lt_numTiles E3 T3 x3 hT3 hx3⟩
  unfold readBack tile4D
  rw [readBack_cancel T0 h0 x0, readBack_cancel T1 h1 x1,
    readBack_cancel T2 h2 x2, readBack_cancel T3 h3 x3]

/-- Witness for `generateTiledTensor_reconstructs`: a source axis of extent 5
tiled with tile extent 2 (not divisible) and halo 1, and a 4-axis source with
mixed tile extents at a concrete in-bounds coordinate. -/
theorem generateTiledTensor_reconstructs_witness :
    reconstruct (fun x => 10 * x) 5 2 1 = (List.range 5).map (fun x => 10 * x) ∧
    readBack (fun a b c d => ((a, b), (c, d))) 2 3 1 4 1 1 0 2 2 6 1 7 =
      ((2, 6), (1, 7)) ∧
    2 / 2 < numTiles 3 2 ∧ 6 / 3 < numTiles 7 3 ∧
    1 / 1 < numTiles 2 1 ∧ 7 / 4 < numTiles 9 4 :=
  generateTiledTensor_reconstructs (fun x => 10 * x)
    (fun a b c d => ((a, b), (c, d))) 5 2 1 3 7 2 9 2 3 1 4 1 1 0 2 2 6 1 7
    (by decide) (by decide) (by decide) (by decide) (by decide) (by decide)
    (by decide) (by decide) (by decide)

/-- Witness for `computeBasicTileShapes_deterministic`: two calls at the same
concrete operator and the hardware constants kNumPEs = 8, kNumMaccsPerPE = 32
agree. -/
theorem computeBasicTileShapes_deterministic_witness :
    computeBasicTileShapes
        (ConvOpParams.mk
          (TensorShape4.mk 1 8 8 4 DataLayout.NHWC)
          (TensorShape4.mk 8 3 3 4 DataLayout.NHWC)
          (TensorShape4.mk 1 8 8 8 DataLayout.NHWC) 3 3 1 1) kNumPEs
        kNumMaccsPerPE =
      computeBasicTileShapes
        (ConvOpParams.mk
          (TensorShape4.mk 1 8 8 4 DataLayout.NHWC)
          (TensorShape4.mk 8 3 3 4 DataLayout.NHWC)
          (TensorShape4.mk 1 8 8 8 DataLayout.NHWC) 3 3 1 1) kNumPEs
        kNumMaccsPerPE :=
  computeBasicTileShapes_deterministic _ _ _ _ _ _ rfl rfl rfl

end Smaug
